import Mathlib

/-!
Verification of the adversarial game-tree search engine in `minmax_agent.py`
of the repository Ago95Dev/AI_Chess_Engine.

The engine (`MinMaxAgent`) is generic over three collaborator functions
(`H_0`, `get_children`, `is_final`); it is embedded here as a `Game` structure
over an abstract state type `σ`.  Scores are Python floats used only through
comparisons, addition of integer piece values, and the two infinities
`float('-inf')` / `float('inf')`; every value the repository produces is an
integer or one of the two infinities, so `Score` is embedded as
`WithBot (WithTop Int)` (`⊥` = `-inf`, `⊤` = `+inf`).

`random.choice` draws uniformly from a list; it is embedded as `randomChoice`
parametrised by a natural-number draw `r` (index `r % length`).  The recursive
calls of the Python code discard the child component of their result
(`child_value, _ = self.minmax(...)`), so the draws consumed inside the
recursion are unobservable; the embedding threads the same `r` through.

Python's `list.sort` is a stable sort, and the output of a stable sort is
uniquely determined by the comparator, so the sort in `blminmax` is embedded
as the stable `List.insertionSort`.
-/

/-- Python float values produced by the repository: integers plus the two
infinities `float('-inf')` (⊥) and `float('inf')` (⊤). -/
abbrev Score : Type := WithBot (WithTop Int)

/-- Embed an integer into `Score`. -/
def Score.ofInt (n : Int) : Score := ((n : WithTop Int) : WithBot (WithTop Int))

/-- The three collaborator functions handed to `MinMaxAgent.__init__`:
`H0_function`, `get_children_function`, `is_final_function`. -/
structure Game (σ : Type) where
  H_0 : σ → Score
  get_children : σ → List σ
  is_final : σ → Bool

/-- Embedding of `random.choice(lst) if lst else None`: uniform draw from a list, embedded
with an explicit draw `r` (index `r % length`); `none` on the empty list. -/
def randomChoice (r : Nat) (l : List α) : Option α := l[r % l.length]?

/-- The child loop shared by `minmax` and `blminmax` (lines 145-161 and
269-284 of `minmax_agent.py`): fold over the children, tracking the best
value so far and the list `best_children_states` of children tied for it.
`f` evaluates a child (the recursive call, of which the source keeps only
the value component). -/
def mmLoop (f : α → Score) (maximizing_player : Bool) :
    List α → Score → List α → Score × List α
  | [], best_value, ties => (best_value, ties)
  | child :: rest, best_value, ties =>
    let child_value := f child
    if maximizing_player then
      if best_value < child_value then mmLoop f maximizing_player rest child_value [child]
      else if child_value = best_value then
        mmLoop f maximizing_player rest best_value (ties ++ [child])
      else mmLoop f maximizing_player rest best_value ties
    else
      if child_value < best_value then mmLoop f maximizing_player rest child_value [child]
      else if child_value = best_value then
        mmLoop f maximizing_player rest best_value (ties ++ [child])
      else mmLoop f maximizing_player rest best_value ties

/-- Embedding of `MinMaxAgent.minmax` (lines 131-164): plain minimax.  Returns the best
value and a uniformly drawn member of the tied-best children (`none` only
when the guard `if best_children_states` fails). -/
def minmax (g : Game σ) : Nat → σ → Bool → Nat → Score × Option σ
  | 0, state, _, _ => (g.H_0 state, some state)
  | L + 1, state, maximizing_player, r =>
    if g.is_final state then (g.H_0 state, some state)
    else
      match g.get_children state with
      | [] => (g.H_0 state, some state)
      | c :: cs =>
        let res := mmLoop (fun child => (minmax g L child (!maximizing_player) r).1)
          maximizing_player (c :: cs) (if maximizing_player then ⊥ else ⊤) []
        (res.1, randomChoice r res.2)

/-- The maximizing-player loop of `MinMaxAgent.fhabminmax` (lines 180-189):
track `value` and the first strictly improving child; after each child raise
`alpha` and break once `alpha >= beta`.  `f child alpha` is the recursive
call's value component under the current window (`beta` is fixed). -/
def fhLoopMax (f : α → Score → Score) (beta : Score) :
    List α → Score → Option α → Score → Score × Option α
  | [], value, best_move_state, _ => (value, best_move_state)
  | child :: rest, value, best_move_state, alpha =>
    let child_value := f child alpha
    let value' := if value < child_value then child_value else value
    let best' := if value < child_value then some child else best_move_state
    let alpha' := max alpha value'
    if beta ≤ alpha' then (value', best')
    else fhLoopMax f beta rest value' best' alpha'

/-- The minimizing-player loop of `MinMaxAgent.fhabminmax` (lines 190-200):
lower `beta` after each child and break once `beta <= alpha`. -/
def fhLoopMin (f : α → Score → Score) (alpha : Score) :
    List α → Score → Option α → Score → Score × Option α
  | [], value, best_move_state, _ => (value, best_move_state)
  | child :: rest, value, best_move_state, beta =>
    let child_value := f child beta
    let value' := if child_value < value then child_value else value
    let best' := if child_value < value then some child else best_move_state
    let beta' := min beta value'
    if beta' ≤ alpha then (value', best')
    else fhLoopMin f alpha rest value' best' beta'

/-- Embedding of `MinMaxAgent.fhabminmax` (lines 166-200): fail-hard alpha-beta. -/
def fhabminmax (g : Game σ) : Nat → σ → Score → Score → Bool → Score × Option σ
  | 0, state, _, _, _ => (g.H_0 state, some state)
  | L + 1, state, alpha, beta, maximizing_player =>
    if g.is_final state then (g.H_0 state, some state)
    else
      match g.get_children state with
      | [] => (g.H_0 state, some state)
      | c :: cs =>
        if maximizing_player then
          fhLoopMax (fun child a => (fhabminmax g L child a beta false).1) beta
            (c :: cs) ⊥ none alpha
        else
          fhLoopMin (fun child b => (fhabminmax g L child alpha b true).1) alpha
            (c :: cs) ⊤ none beta

/-- The maximizing-player loop of `MinMaxAgent.fsabminmax` (lines 215-225):
like the fail-hard loop, but return as soon as `value >= beta`, before
raising `alpha`. -/
def fsLoopMax (f : α → Score → Score) (beta : Score) :
    List α → Score → Option α → Score → Score × Option α
  | [], value, best_move_state, _ => (value, best_move_state)
  | child :: rest, value, best_move_state, alpha =>
    let child_value := f child alpha
    let value' := if value < child_value then child_value else value
    let best' := if value < child_value then some child else best_move_state
    if beta ≤ value' then (value', best')
    else fsLoopMax f beta rest value' best' (max alpha value')

/-- The minimizing-player loop of `MinMaxAgent.fsabminmax` (lines 226-236):
return as soon as `value <= alpha`, before lowering `beta`. -/
def fsLoopMin (f : α → Score → Score) (alpha : Score) :
    List α → Score → Option α → Score → Score × Option α
  | [], value, best_move_state, _ => (value, best_move_state)
  | child :: rest, value, best_move_state, beta =>
    let child_value := f child beta
    let value' := if child_value < value then child_value else value
    let best' := if child_value < value then some child else best_move_state
    if value' ≤ alpha then (value', best')
    else fsLoopMin f alpha rest value' best' (min beta value')

/-- Embedding of `MinMaxAgent.fsabminmax` (lines 202-236): fail-soft alpha-beta. -/
def fsabminmax (g : Game σ) : Nat → σ → Score → Score → Bool → Score × Option σ
  | 0, state, _, _, _ => (g.H_0 state, some state)
  | L + 1, state, alpha, beta, maximizing_player =>
    if g.is_final state then (g.H_0 state, some state)
    else
      match g.get_children state with
      | [] => (g.H_0 state, some state)
      | c :: cs =>
        if maximizing_player then
          fsLoopMax (fun child a => (fsabminmax g L child a beta false).1) beta
            (c :: cs) ⊥ none alpha
        else
          fsLoopMin (fun child b => (fsabminmax g L child alpha b true).1) alpha
            (c :: cs) ⊤ none beta

/-- Embedding of `MinMaxAgent.blminmax` (lines 238-287): branch-limited minimax.
Every child is statically evaluated with `H_0`, the pairs are sorted
descending by that value (`list.sort(key=..., reverse=True)` is a stable
sort, embedded as the stable `List.insertionSort`), only the first
`branch_limit` children are kept, and the plain-minimax loop runs on those. -/
def blminmax (g : Game σ) : Nat → σ → Nat → Bool → Nat → Score × Option σ
  | 0, state, _, _, _ => (g.H_0 state, some state)
  | L + 1, state, branch_limit, maximizing_player, r =>
    if g.is_final state then (g.H_0 state, some state)
    else
      match g.get_children state with
      | [] => (g.H_0 state, some state)
      | c :: cs =>
        let evaluated_children := (c :: cs).map (fun child => (g.H_0 child, child))
        let sorted := evaluated_children.insertionSort (fun x y => y.1 ≤ x.1)
        let promising_children := (sorted.take branch_limit).map (fun t => t.2)
        let res := mmLoop
          (fun child => (blminmax g L child branch_limit (!maximizing_player) r).1)
          maximizing_player promising_children
          (if maximizing_player then ⊥ else ⊤) []
        (res.1, randomChoice r res.2)

/-- Embedding of `MinMaxAgent.pred_blminmax` (lines 289-296): prints
`"pred_blminmax not yet implemented. Falling back to blminmax."` and
delegates to `blminmax` unchanged.  The `print` side effect is embedded as
an output-line list paired with the returned result. -/
def pred_blminmax (g : Game σ) (L : Nat) (state : σ) (branch_limit : Nat)
    (maximizing_player : Bool) (r : Nat) : List String × (Score × Option σ) :=
  (["pred_blminmax not yet implemented. Falling back to blminmax."],
    blminmax g L state branch_limit maximizing_player r)

/-- Embedding of `MinMaxAgent.mi_pred_blminmax` (lines 298-305): prints
`"mi_pred_blminmax not yet implemented. Falling back to blminmax."` and
delegates to `blminmax` unchanged. -/
def mi_pred_blminmax (g : Game σ) (L : Nat) (state : σ) (branch_limit : Nat)
    (maximizing_player : Bool) (r : Nat) : List String × (Score × Option σ) :=
  (["mi_pred_blminmax not yet implemented. Falling back to blminmax."],
    blminmax g L state branch_limit maximizing_player r)

/-!
The method `MinMaxAgent.find_best_move` (lines 122-129) executes
`self.engine(current_state, depth, True)`: the literal `True` is passed as
the *third positional argument* of the selected engine method.  For `minmax`
the third parameter is `maximizing_player`, as the comment in the source
intends.  For `fhabminmax` and `fsabminmax`, however, the third parameter is
`alpha`, so the root window becomes `alpha = True` (Python's `bool` is an
`int` subclass with `True == 1`) with the defaults `beta = inf`,
`maximizing_player = True`.  For `blminmax` the third parameter is
`branch_limit`, so the search runs with `branch_limit = True`, and Python
list slicing `[:True]` keeps exactly one element.
-/

/-- Embedding of `find_best_move` with the `MIN_MAX` engine. -/
def find_best_move_min_max (g : Game σ) (current_state : σ) (depth : Nat)
    (r : Nat) : Score × Option σ :=
  minmax g depth current_state true r

/-- Embedding of `find_best_move` with the `FAIL_HARD_ALPHA_BETA` engine: `True` lands in
`alpha` (numerically `1`). -/
def find_best_move_fail_hard (g : Game σ) (current_state : σ) (depth : Nat) :
    Score × Option σ :=
  fhabminmax g depth current_state (Score.ofInt 1) ⊤ true

/-- Embedding of `find_best_move` with the `FAIL_SOFT_ALPHA_BETA` engine: `True` lands in
`alpha` (numerically `1`). -/
def find_best_move_fail_soft (g : Game σ) (current_state : σ) (depth : Nat) :
    Score × Option σ :=
  fsabminmax g depth current_state (Score.ofInt 1) ⊤ true

/-- Embedding of `find_best_move` with the `BRANCHING_LIMIT` engine: `True` lands in
`branch_limit` (slicing with `True` keeps one element). -/
def find_best_move_branching_limit (g : Game σ) (current_state : σ)
    (depth : Nat) (r : Nat) : Score × Option σ :=
  blminmax g depth current_state 1 true r

/-- All nodes the search can reach from `state` within `L` plies: the node
itself, and, when it is not final and depth remains, everything reachable
from its children one ply deeper. -/
def visited (g : Game σ) : Nat → σ → List σ
  | 0, state => [state]
  | L + 1, state =>
    state :: (if g.is_final state then []
      else (g.get_children state).flatMap (visited g L))

/-! The chess collaborator: `chess_H0` (lines 33-81 of `minmax_agent.py`). -/

/-- The chess piece kinds enumerated in `piece_values` inside `chess_H0`. -/
inductive ChessPiece
  | pawn | knight | bishop | rook | queen | king
deriving DecidableEq

/-- The observable state of a `chess.Board` consulted by `chess_H0`.
`turn = true` is White to move (`chess.WHITE`).  `pieces c p` is the number
of pieces of colour `c` (`true` = White) and kind `p` on the board;
`center_color i` is the colour of the occupant of the i-th central square
(d4, e4, d5, e5), if any.  The five Boolean fields are the python-chess
game-over predicates the function calls; these belong to the external
python-chess library and are carried as board attributes. -/
structure ChessBoard where
  turn : Bool
  pieces : Bool → ChessPiece → Nat
  center_color : Fin 4 → Option Bool
  is_checkmate : Bool
  is_stalemate : Bool
  is_insufficient_material : Bool
  is_fivefold_repetition : Bool
  is_seventyfive_moves : Bool

/-- The `piece_values` table of `chess_H0` (lines 40-47). -/
def piece_values : ChessPiece → Int
  | .pawn => 100
  | .knight => 320
  | .bishop => 330
  | .rook => 500
  | .queen => 900
  | .king => 0

/-- The iteration order of the `piece_values` dictionary. -/
def chessPieceTypes : List ChessPiece :=
  [.pawn, .knight, .bishop, .rook, .queen, .king]

/-- Embedding of `chess_H0` (lines 33-81): material plus centre-control score from
White's perspective; on checkmate return `-inf` when White is to move and
`+inf` when Black is to move; on the four drawn outcomes return `0`;
otherwise negate the score when Black is to move. -/
def chess_H0 (board : ChessBoard) : Score :=
  let material := chessPieceTypes.foldl (fun score piece_type =>
    score + (board.pieces true piece_type : Int) * piece_values piece_type
      - (board.pieces false piece_type : Int) * piece_values piece_type) 0
  let score := (List.finRange 4).foldl (fun score sq =>
    match board.center_color sq with
    | some c => if c then score + 10 else score - 10
    | none => score) material
  if board.is_checkmate then
    if board.turn then (⊥ : Score) else (⊤ : Score)
  else if board.is_stalemate || board.is_insufficient_material ||
      board.is_fivefold_repetition || board.is_seventyfive_moves then
    Score.ofInt 0
  else if board.turn = false then Score.ofInt (-score)
  else Score.ofInt score

/-! Concrete instances used to settle the claims. -/

/-- Scholar's mate (1.e4 e5 2.Bc4 Nc6 3.Qh5 Nf6 4.Qxf7#): Black is to move
and is checkmated; White has all sixteen pieces, Black has lost the f7 pawn;
the central squares e4 and e5 hold a white and a black pawn. -/
def scholars_mate_board : ChessBoard where
  turn := false
  pieces := fun c p =>
    match p with
    | .pawn => if c then 8 else 7
    | .knight => 2
    | .bishop => 2
    | .rook => 2
    | .queen => 1
    | .king => 1
  center_color := fun i => if i = 1 then some true else if i = 3 then some false else none
  is_checkmate := true
  is_stalemate := false
  is_insufficient_material := false
  is_fivefold_repetition := false
  is_seventyfive_moves := false

/-- Fool's mate (1.f3 e5 2.g4 Qh4#): White is to move and is checkmated;
both sides still have all sixteen pieces; e5 holds a black pawn. -/
def fools_mate_board : ChessBoard where
  turn := true
  pieces := fun _ p =>
    match p with
    | .pawn => 8
    | .knight => 2
    | .bishop => 2
    | .rook => 2
    | .queen => 1
    | .king => 1
  center_color := fun i => if i = 3 then some false else none
  is_checkmate := true
  is_stalemate := false
  is_insufficient_material := false
  is_fivefold_repetition := false
  is_seventyfive_moves := false

/-- Depth-2 tree on which the root window `alpha = True` of `find_best_move`
changes the alpha-beta root values: root `0` has children `1` (grandchildren
`3`, `4` of heuristic values `0`, `-10`) and `2` (grandchild `5` of value
`-5`). -/
def windowGame : Game Nat where
  H_0 := fun s =>
    if s = 4 then Score.ofInt (-10) else if s = 5 then Score.ofInt (-5)
    else Score.ofInt 0
  get_children := fun s =>
    if s = 0 then [1, 2] else if s = 1 then [3, 4] else if s = 2 then [5] else []
  is_final := fun _ => false

/-- A game whose states are non-terminal but have no successors. -/
def childlessGame : Game Nat where
  H_0 := fun _ => Score.ofInt 7
  get_children := fun _ => []
  is_final := fun _ => false

/-- Depth-2 tree separating `branch_limit = 1` from `branch_limit = 5`:
root `0` has children `1` (static value `10`, its only grandchild worth
`-100`) and `2` (static value `0`, its only grandchild worth `7`). -/
def branchGame : Game Nat where
  H_0 := fun s =>
    if s = 1 then Score.ofInt 10 else if s = 3 then Score.ofInt (-100)
    else if s = 4 then Score.ofInt 7 else Score.ofInt 0
  get_children := fun s =>
    if s = 0 then [1, 2] else if s = 1 then [3] else if s = 2 then [4] else []
  is_final := fun _ => false

/-- Depth-1 tie-break scenario: root `0` with three children of heuristic
values `5`, `9`, `9`. -/
def tieGame : Game Nat where
  H_0 := fun s =>
    Score.ofInt (if s = 1 then 5 else if s = 2 then 9 else if s = 3 then 9 else 0)
  get_children := fun s => if s = 0 then [1, 2, 3] else []
  is_final := fun _ => false

/-- Root `0` with a single child of heuristic value `-inf`. -/
def lostGame : Game Nat where
  H_0 := fun s => if s = 1 then (⊥ : Score) else Score.ofInt 0
  get_children := fun s => if s = 0 then [1] else []
  is_final := fun _ => false

/-! Helper lemmas. -/

theorem randomChoice_singleton (r : Nat) (a : α) : randomChoice r [a] = some a := by
  simp [randomChoice, Nat.mod_one]

theorem randomChoice_mem {r : Nat} {l : List α} {a : α}
    (h : randomChoice r l = some a) : a ∈ l := by
  obtain ⟨hi, rfl⟩ := List.getElem?_eq_some_iff.mp h
  exact List.getElem_mem hi

theorem foldl_max_init_le (f : α → Score) (l : List α) :
    ∀ v : Score, v ≤ l.foldl (fun acc c => max acc (f c)) v := by
  induction l with
  | nil => intro v; exact le_rfl
  | cons c cs ih =>
    intro v
    simp only [List.foldl_cons]
    exact le_trans (le_max_left v (f c)) (ih (max v (f c)))

theorem foldl_max_le_of_mem (f : α → Score) (l : List α) :
    ∀ (v : Score) (c : α), c ∈ l → f c ≤ l.foldl (fun acc c => max acc (f c)) v := by
  induction l with
  | nil => intro v c hc; cases hc
  | cons d ds ih =>
    intro v c hc
    simp only [List.foldl_cons]
    rcases List.mem_cons.mp hc with rfl | hc
    · exact le_trans (le_max_right v (f c)) (foldl_max_init_le f ds _)
    · exact ih _ c hc

theorem foldl_max_attained (f : α → Score) (l : List α) :
    ∀ v : Score, l.foldl (fun acc c => max acc (f c)) v = v ∨
      ∃ c ∈ l, f c = l.foldl (fun acc c => max acc (f c)) v := by
  induction l with
  | nil => intro v; exact Or.inl rfl
  | cons d ds ih =>
    intro v
    simp only [List.foldl_cons]
    rcases le_total (f d) v with h | h
    · rcases ih (max v (f d)) with h' | ⟨c, hc, hc'⟩
      · left; rw [h', max_eq_left h]
      · right; exact ⟨c, List.mem_cons_of_mem _ hc, hc'⟩
    · rcases ih (max v (f d)) with h' | ⟨c, hc, hc'⟩
      · right; exact ⟨d, List.mem_cons_self d ds, by rw [h', max_eq_right h]⟩
      · right; exact ⟨c, List.mem_cons_of_mem _ hc, hc'⟩

theorem foldl_min_le_init (f : α → Score) (l : List α) :
    ∀ v : Score, l.foldl (fun acc c => min acc (f c)) v ≤ v := by
  induction l with
  | nil => intro v; exact le_rfl
  | cons c cs ih =>
    intro v
    simp only [List.foldl_cons]
    exact le_trans (ih (min v (f c))) (min_le_left v (f c))

theorem foldl_min_le_of_mem (f : α → Score) (l : List α) :
    ∀ (v : Score) (c : α), c ∈ l → l.foldl (fun acc c => min acc (f c)) v ≤ f c := by
  induction l with
  | nil => intro v c hc; cases hc
  | cons d ds ih =>
    intro v c hc
    simp only [List.foldl_cons]
    rcases List.mem_cons.mp hc with rfl | hc
    · exact le_trans (foldl_min_le_init f ds _) (min_le_right v (f c))
    · exact ih _ c hc

theorem foldl_min_attained (f : α → Score) (l : List α) :
    ∀ v : Score, l.foldl (fun acc c => min acc (f c)) v = v ∨
      ∃ c ∈ l, f c = l.foldl (fun acc c => min acc (f c)) v := by
  induction l with
  | nil => intro v; exact Or.inl rfl
  | cons d ds ih =>
    intro v
    simp only [List.foldl_cons]
    rcases le_total v (f d) with h | h
    · rcases ih (min v (f d)) with h' | ⟨c, hc, hc'⟩
      · left; rw [h', min_eq_left h]
      · right; exact ⟨c, List.mem_cons_of_mem _ hc, hc'⟩
    · rcases ih (min v (f d)) with h' | ⟨c, hc, hc'⟩
      · right; exact ⟨d, List.mem_cons_self d ds, by rw [h', min_eq_right h]⟩
      · right; exact ⟨c, List.mem_cons_of_mem _ hc, hc'⟩

theorem mmLoop_fst_max (f : α → Score) (l : List α) :
    ∀ (v : Score) (ties : List α),
      (mmLoop f true l v ties).1 = l.foldl (fun acc c => max acc (f c)) v := by
  induction l with
  | nil => intro v ties; rfl
  | cons c cs ih =>
    intro v ties
    simp only [mmLoop, List.foldl_cons, if_true]
    by_cases h1 : v < f c
    · rw [if_pos h1, ih, max_eq_right h1.le]
    · rw [if_neg h1]
      by_cases h2 : f c = v
      · rw [if_pos h2, ih, h2, max_self]
      · rw [if_neg h2, ih, max_eq_left (le_of_not_lt h1)]

theorem mmLoop_fst_min (f : α → Score) (l : List α) :
    ∀ (v : Score) (ties : List α),
      (mmLoop f false l v ties).1 = l.foldl (fun acc c => min acc (f c)) v := by
  induction l with
  | nil => intro v ties; rfl
  | cons c cs ih =>
    intro v ties
    simp only [mmLoop, List.foldl_cons, Bool.false_eq_true, if_false]
    by_cases h1 : f c < v
    · rw [if_pos h1, ih, min_eq_right h1.le]
    · rw [if_neg h1]
      by_cases h2 : f c = v
      · rw [if_pos h2, ih, h2, min_self]
      · rw [if_neg h2, ih, min_eq_left (le_of_not_lt h1)]

theorem mmLoop_snd_max (f : α → Score) (l : List α) :
    ∀ (v : Score) (ties : List α),
      (mmLoop f true l v ties).2 =
        (if l.foldl (fun acc c => max acc (f c)) v = v then ties else []) ++
          l.filter (fun c => decide (f c = l.foldl (fun acc c => max acc (f c)) v)) := by
  induction l with
  | nil =>
    intro v ties
    simp [mmLoop]
  | cons c cs ih =>
    intro v ties
    by_cases h1 : v < f c
    · have hmax : max v (f c) = f c := max_eq_right h1.le
      simp only [mmLoop, List.foldl_cons, if_true, if_pos h1, hmax]
      rw [ih]
      have hvF : ¬ cs.foldl (fun acc c => max acc (f c)) (f c) = v :=
        ne_of_gt (lt_of_lt_of_le h1 (foldl_max_init_le f cs (f c)))
      rw [if_neg hvF]
      by_cases h2 : f c = cs.foldl (fun acc c => max acc (f c)) (f c)
      · rw [if_pos h2.symm, List.filter_cons, if_pos (decide_eq_true h2)]
        simp
      · rw [if_neg (fun h => h2 h.symm), List.filter_cons, if_neg (by simp [h2])]
    · by_cases h2 : f c = v
      · have hmax : max v (f c) = v := by rw [h2, max_self]
        simp only [mmLoop, List.foldl_cons, if_true, if_neg h1, if_pos h2, hmax]
        rw [ih]
        by_cases h3 : cs.foldl (fun acc c => max acc (f c)) v = v
        · have hcF : f c = cs.foldl (fun acc c => max acc (f c)) v := h2.trans h3.symm
          simp [h3, hcF, List.filter_cons]
        · have hcF : ¬ f c = cs.foldl (fun acc c => max acc (f c)) v :=
            fun h => h3 (h.symm.trans h2)
          simp [h3, hcF, List.filter_cons]
      · have hcv : f c < v := lt_of_le_of_ne (le_of_not_lt h1) h2
        have hmax : max v (f c) = v := max_eq_left hcv.le
        simp only [mmLoop, List.foldl_cons, if_true, if_neg h1, if_neg h2, hmax]
        rw [ih]
        have hcF : ¬ f c = cs.foldl (fun acc c => max acc (f c)) v :=
          ne_of_lt (lt_of_lt_of_le hcv (foldl_max_init_le f cs v))
        simp [hcF, List.filter_cons]

theorem mmLoop_snd_min (f : α → Score) (l : List α) :
    ∀ (v : Score) (ties : List α),
      (mmLoop f false l v ties).2 =
        (if l.foldl (fun acc c => min acc (f c)) v = v then ties else []) ++
          l.filter (fun c => decide (f c = l.foldl (fun acc c => min acc (f c)) v)) := by
  induction l with
  | nil =>
    intro v ties
    simp [mmLoop]
  | cons c cs ih =>
    intro v ties
    by_cases h1 : f c < v
    · have hmin : min v (f c) = f c := min_eq_right h1.le
      simp only [mmLoop, List.foldl_cons, Bool.false_eq_true, if_false, if_pos h1, hmin]
      rw [ih]
      have hvF : ¬ cs.foldl (fun acc c => min acc (f c)) (f c) = v :=
        ne_of_lt (lt_of_le_of_lt (foldl_min_le_init f cs (f c)) h1)
      rw [if_neg hvF]
      by_cases h2 : f c = cs.foldl (fun acc c => min acc (f c)) (f c)
      · rw [if_pos h2.symm, List.filter_cons, if_pos (decide_eq_true h2)]
        simp
      · rw [if_neg (fun h => h2 h.symm), List.filter_cons, if_neg (by simp [h2])]
    · by_cases h2 : f c = v
      · have hmin : min v (f c) = v := by rw [h2, min_self]
        simp only [mmLoop, List.foldl_cons, Bool.false_eq_true, if_false, if_neg h1,
          if_pos h2, hmin]
        rw [ih]
        by_cases h3 : cs.foldl (fun acc c => min acc (f c)) v = v
        · have hcF : f c = cs.foldl (fun acc c => min acc (f c)) v := h2.trans h3.symm
          simp [h3, hcF, List.filter_cons]
        · have hcF : ¬ f c = cs.foldl (fun acc c => min acc (f c)) v :=
            fun h => h3 (h.symm.trans h2)
          simp [h3, hcF, List.filter_cons]
      · have hcv : v < f c := lt_of_le_of_ne (le_of_not_lt h1) (Ne.symm h2)
        have hmin : min v (f c) = v := min_eq_left hcv.le
        simp only [mmLoop, List.foldl_cons, Bool.false_eq_true, if_false, if_neg h1,
          if_neg h2, hmin]
        rw [ih]
        have hcF : ¬ f c = cs.foldl (fun acc c => min acc (f c)) v :=
          ne_of_gt (lt_of_le_of_lt (foldl_min_le_init f cs v) hcv)
        simp [hcF, List.filter_cons]

theorem mmLoop_congr {f f' : α → Score} (m : Bool) (l : List α)
    (h : ∀ c ∈ l, f c = f' c) :
    ∀ (v : Score) (ties : List α), mmLoop f m l v ties = mmLoop f' m l v ties := by
  induction l with
  | nil => intro v ties; rfl
  | cons c cs ih =>
    intro v ties
    have hc : f c = f' c := h c (List.mem_cons_self c cs)
    have hcs : ∀ x ∈ cs, f x = f' x := fun x hx => h x (List.mem_cons_of_mem _ hx)
    cases m with
    | true =>
      simp only [mmLoop, hc, if_true]
      by_cases h1 : v < f' c
      · simp only [if_pos h1]; exact ih hcs _ _
      · simp only [if_neg h1]
        by_cases h2 : f' c = v
        · simp only [if_pos h2]; exact ih hcs _ _
        · simp only [if_neg h2]; exact ih hcs _ _
    | false =>
      simp only [mmLoop, hc, Bool.false_eq_true, if_false]
      by_cases h1 : f' c < v
      · simp only [if_pos h1]; exact ih hcs _ _
      · simp only [if_neg h1]
        by_cases h2 : f' c = v
        · simp only [if_pos h2]; exact ih hcs _ _
        · simp only [if_neg h2]; exact ih hcs _ _

theorem mmLoop_snd_subset (f : α → Score) (m : Bool) (l : List α) (v : Score) :
    ∀ x ∈ (mmLoop f m l v []).2, x ∈ l := by
  intro x h
  cases m
  · rw [mmLoop_snd_min, ite_self, List.nil_append] at h
    exact List.mem_of_mem_filter h
  · rw [mmLoop_snd_max, ite_self, List.nil_append] at h
    exact List.mem_of_mem_filter h

theorem mmLoop_max_ties_ne_nil (f : α → Score) (c : α) (cs : List α) :
    (mmLoop f true (c :: cs) ⊥ []).2 ≠ [] := by
  rw [mmLoop_snd_max, ite_self, List.nil_append]
  rcases foldl_max_attained f (c :: cs) ⊥ with h | ⟨d, hd, hfd⟩
  · have hle := foldl_max_le_of_mem f (c :: cs) ⊥ c (List.mem_cons_self c cs)
    rw [h] at hle
    exact List.ne_nil_of_mem
      (List.mem_filter.mpr ⟨List.mem_cons_self c cs,
        decide_eq_true ((le_bot_iff.mp hle).trans h.symm)⟩)
  · exact List.ne_nil_of_mem (List.mem_filter.mpr ⟨hd, decide_eq_true hfd⟩)

theorem mmLoop_min_ties_ne_nil (f : α → Score) (c : α) (cs : List α) :
    (mmLoop f false (c :: cs) ⊤ []).2 ≠ [] := by
  rw [mmLoop_snd_min, ite_self, List.nil_append]
  rcases foldl_min_attained f (c :: cs) ⊤ with h | ⟨d, hd, hfd⟩
  · have hle := foldl_min_le_of_mem f (c :: cs) ⊤ c (List.mem_cons_self c cs)
    rw [h] at hle
    exact List.ne_nil_of_mem
      (List.mem_filter.mpr ⟨List.mem_cons_self c cs,
        decide_eq_true ((top_le_iff.mp hle).trans h.symm)⟩)
  · exact List.ne_nil_of_mem (List.mem_filter.mpr ⟨hd, decide_eq_true hfd⟩)

theorem fhLoopMax_snd_mem (f : α → Score → Score) (beta : Score) (l : List α) :
    ∀ (v : Score) (best : Option α) (a : Score) (x : α),
      (fhLoopMax f beta l v best a).2 = some x → best = some x ∨ x ∈ l := by
  induction l with
  | nil => intro v best a x h; exact Or.inl h
  | cons c cs ih =>
    intro v best a x h
    simp only [fhLoopMax] at h
    by_cases h2 : v < f c a
    · simp only [if_pos h2] at h
      by_cases h1 : beta ≤ max a (f c a)
      · rw [if_pos h1] at h
        exact Or.inr (List.mem_cons.mpr (Or.inl (Option.some_injective _ h).symm))
      · rw [if_neg h1] at h
        rcases ih _ _ _ _ h with hb | hm
        · exact Or.inr (List.mem_cons.mpr (Or.inl (Option.some_injective _ hb).symm))
        · exact Or.inr (List.mem_cons_of_mem _ hm)
    · simp only [if_neg h2] at h
      by_cases h1 : beta ≤ max a v
      · rw [if_pos h1] at h
        exact Or.inl h
      · rw [if_neg h1] at h
        rcases ih _ _ _ _ h with hb | hm
        · exact Or.inl hb
        · exact Or.inr (List.mem_cons_of_mem _ hm)

theorem fhLoopMin_snd_mem (f : α → Score → Score) (alpha : Score) (l : List α) :
    ∀ (v : Score) (best : Option α) (b : Score) (x : α),
      (fhLoopMin f alpha l v best b).2 = some x → best = some x ∨ x ∈ l := by
  induction l with
  | nil => intro v best b x h; exact Or.inl h
  | cons c cs ih =>
    intro v best b x h
    simp only [fhLoopMin] at h
    by_cases h2 : f c b < v
    · simp only [if_pos h2] at h
      by_cases h1 : min b (f c b) ≤ alpha
      · rw [if_pos h1] at h
        exact Or.inr (List.mem_cons.mpr (Or.inl (Option.some_injective _ h).symm))
      · rw [if_neg h1] at h
        rcases ih _ _ _ _ h with hb | hm
        · exact Or.inr (List.mem_cons.mpr (Or.inl (Option.some_injective _ hb).symm))
        · exact Or.inr (List.mem_cons_of_mem _ hm)
    · simp only [if_neg h2] at h
      by_cases h1 : min b v ≤ alpha
      · rw [if_pos h1] at h
        exact Or.inl h
      · rw [if_neg h1] at h
        rcases ih _ _ _ _ h with hb | hm
        · exact Or.inl hb
        · exact Or.inr (List.mem_cons_of_mem _ hm)

theorem fsLoopMax_snd_mem (f : α → Score → Score) (beta : Score) (l : List α) :
    ∀ (v : Score) (best : Option α) (a : Score) (x : α),
      (fsLoopMax f beta l v best a).2 = some x → best = some x ∨ x ∈ l := by
  induction l with
  | nil => intro v best a x h; exact Or.inl h
  | cons c cs ih =>
    intro v best a x h
    simp only [fsLoopMax] at h
    by_cases h2 : v < f c a
    · simp only [if_pos h2] at h
      by_cases h1 : beta ≤ f c a
      · rw [if_pos h1] at h
        exact Or.inr (List.mem_cons.mpr (Or.inl (Option.some_injective _ h).symm))
      · rw [if_neg h1] at h
        rcases ih _ _ _ _ h with hb | hm
        · exact Or.inr (List.mem_cons.mpr (Or.inl (Option.some_injective _ hb).symm))
        · exact Or.inr (List.mem_cons_of_mem _ hm)
    · simp only [if_neg h2] at h
      by_cases h1 : beta ≤ v
      · rw [if_pos h1] at h
        exact Or.inl h
      · rw [if_neg h1] at h
        rcases ih _ _ _ _ h with hb | hm
        · exact Or.inl hb
        · exact Or.inr (List.mem_cons_of_mem _ hm)

theorem fsLoopMin_snd_mem (f : α → Score → Score) (alpha : Score) (l : List α) :
    ∀ (v : Score) (best : Option α) (b : Score) (x : α),
      (fsLoopMin f alpha l v best b).2 = some x → best = some x ∨ x ∈ l := by
  induction l with
  | nil => intro v best b x h; exact Or.inl h
  | cons c cs ih =>
    intro v best b x h
    simp only [fsLoopMin] at h
    by_cases h2 : f c b < v
    · simp only [if_pos h2] at h
      by_cases h1 : f c b ≤ alpha
      · rw [if_pos h1] at h
        exact Or.inr (List.mem_cons.mpr (Or.inl (Option.some_injective _ h).symm))
      · rw [if_neg h1] at h
        rcases ih _ _ _ _ h with hb | hm
        · exact Or.inr (List.mem_cons.mpr (Or.inl (Option.some_injective _ hb).symm))
        · exact Or.inr (List.mem_cons_of_mem _ hm)
    · simp only [if_neg h2] at h
      by_cases h1 : v ≤ alpha
      · rw [if_pos h1] at h
        exact Or.inl h
      · rw [if_neg h1] at h
        rcases ih _ _ _ _ h with hb | hm
        · exact Or.inl hb
        · exact Or.inr (List.mem_cons_of_mem _ hm)

theorem randomChoice_isSome {l : List α} (h : l ≠ []) (r : Nat) :
    ∃ x, randomChoice r l = some x ∧ x ∈ l := by
  have hlen : 0 < l.length := List.length_pos.mpr h
  have hlt : r % l.length < l.length := Nat.mod_lt r hlen
  exact ⟨l[r % l.length],
    by simp [randomChoice, List.getElem?_eq_getElem hlt], List.getElem_mem hlt⟩

theorem foldl_max_perm (f : α → Score) {l l' : List α} (p : l.Perm l')
    (v : Score) :
    l.foldl (fun acc c => max acc (f c)) v = l'.foldl (fun acc c => max acc (f c)) v := by
  haveI : RightCommutative (fun (acc : Score) c => max acc (f c)) :=
    ⟨fun b a₁ a₂ => by rw [max_assoc, max_comm (f a₁), max_assoc]⟩
  exact p.foldl_eq v

theorem foldl_min_perm (f : α → Score) {l l' : List α} (p : l.Perm l')
    (v : Score) :
    l.foldl (fun acc c => min acc (f c)) v = l'.foldl (fun acc c => min acc (f c)) v := by
  haveI : RightCommutative (fun (acc : Score) c => min acc (f c)) :=
    ⟨fun b a₁ a₂ => by rw [min_assoc, min_comm (f a₁), min_assoc]⟩
  exact p.foldl_eq v

/-- The retained children of a `blminmax` node are taken from the sorted
copies of the real children list. -/
theorem promising_subset (g : Game σ) (l : List σ) (branch_limit : Nat) :
    ∀ x ∈ ((((l.map (fun child => (g.H_0 child, child))).insertionSort
        (fun x y => y.1 ≤ x.1)).take branch_limit).map (fun t => t.2)), x ∈ l := by
  intro x hx
  obtain ⟨t, ht, rfl⟩ := List.mem_map.mp hx
  have ht' := List.take_subset _ _ ht
  have ht'' := (List.mem_insertionSort _).mp ht'
  obtain ⟨c, hc, rfl⟩ := List.mem_map.mp ht''
  exact hc

/-- The retained children of a `blminmax` node with a branch limit at least
the child count are a permutation of the real children list. -/
theorem promising_perm (g : Game σ) (l : List σ) (branch_limit : Nat)
    (hlen : l.length ≤ branch_limit) :
    ((((l.map (fun child => (g.H_0 child, child))).insertionSort
        (fun x y => y.1 ≤ x.1)).take branch_limit).map (fun t => t.2)).Perm l := by
  have hslen : ((l.map (fun child => (g.H_0 child, child))).insertionSort
      (fun x y => y.1 ≤ x.1)).length ≤ branch_limit := by
    rw [List.length_insertionSort, List.length_map]
    exact hlen
  rw [List.take_of_length_le hslen]
  have hperm := (List.perm_insertionSort (fun x y : Score × σ => y.1 ≤ x.1)
    (l.map (fun child => (g.H_0 child, child)))).map (fun t : Score × σ => t.2)
  rw [List.map_map] at hperm
  have hid : List.map ((fun t : Score × σ => t.2) ∘ fun child => (g.H_0 child, child)) l
      = l := by
    simp [Function.comp_def]
  rw [hid] at hperm
  exact hperm

/-- The value component of `minmax` does not depend on the random draw. -/
theorem minmax_fst_r_irrel (g : Game σ) :
    ∀ (L : Nat) (s : σ) (m : Bool) (r r' : Nat),
      (minmax g L s m r).1 = (minmax g L s m r').1 := by
  intro L
  induction L with
  | zero => intro s m r r'; rfl
  | succ L ih =>
    intro s m r r'
    cases hfin : g.is_final s with
    | true => simp [minmax, hfin]
    | false =>
      cases hch : g.get_children s with
      | nil => simp [minmax, hfin, hch]
      | cons c cs =>
        simp only [minmax, hfin, Bool.false_eq_true, if_false, hch]
        rw [mmLoop_congr m (c :: cs) (fun x _ => ih x (!m) r r')]

/-- The value component of `blminmax` does not depend on the random draw. -/
theorem blminmax_fst_r_irrel (g : Game σ) :
    ∀ (L : Nat) (s : σ) (branch_limit : Nat) (m : Bool) (r r' : Nat),
      (blminmax g L s branch_limit m r).1 = (blminmax g L s branch_limit m r').1 := by
  intro L
  induction L with
  | zero => intro s bl m r r'; rfl
  | succ L ih =>
    intro s bl m r r'
    cases hfin : g.is_final s with
    | true => simp [blminmax, hfin]
    | false =>
      cases hch : g.get_children s with
      | nil => simp [blminmax, hfin, hch]
      | cons c cs =>
        simp only [blminmax, hfin, Bool.false_eq_true, if_false, hch]
        rw [mmLoop_congr m _ (fun x _ => ih x bl (!m) r r')]

/-- With a branch limit at least the child count at every node reachable
within the search depth, the branch-limited value equals the plain-minimax
value (for any random draws on either side). -/
theorem blminmax_fst_eq_minmax_fst (g : Game σ) :
    ∀ (L : Nat) (s : σ) (branch_limit : Nat) (m : Bool) (r r' : Nat),
      (∀ t ∈ visited g L s, (g.get_children t).length ≤ branch_limit) →
      (blminmax g L s branch_limit m r).1 = (minmax g L s m r').1 := by
  intro L
  induction L with
  | zero => intro s bl m r r' _; rfl
  | succ L ih =>
    intro s bl m r r' h
    cases hfin : g.is_final s with
    | true => simp [blminmax, minmax, hfin]
    | false =>
      cases hch : g.get_children s with
      | nil => simp [blminmax, minmax, hfin, hch]
      | cons c cs =>
        have hs : s ∈ visited g (L + 1) s := by simp [visited]
        have hlen : (c :: cs).length ≤ bl := hch ▸ h s hs
        have hsub : ∀ x ∈ g.get_children s,
            ∀ t ∈ visited g L x, (g.get_children t).length ≤ bl := by
          intro x hx t ht
          apply h
          simp only [visited, hfin, Bool.false_eq_true, if_false]
          exact List.mem_cons_of_mem _ (List.mem_flatMap.mpr ⟨x, hx, ht⟩)
        have hperm := promising_perm g (c :: cs) bl hlen
        have hcongr := @mmLoop_congr σ
          (fun child => (blminmax g L child bl (!m) r).1)
          (fun child => (minmax g L child (!m) r').1) m
          (((((c :: cs).map (fun child => (g.H_0 child, child))).insertionSort
            (fun x y => y.1 ≤ x.1)).take bl).map (fun t => t.2))
          (fun x hxp => ih x bl (!m) r r'
            (hsub x (hch.symm ▸ promising_subset g (c :: cs) bl x hxp)))
        simp only [blminmax, minmax, hfin, Bool.false_eq_true, if_false, hch]
        rw [hcongr]
        cases m with
        | true =>
          rw [mmLoop_fst_max, mmLoop_fst_max]
          exact foldl_max_perm _ hperm _
        | false =>
          rw [mmLoop_fst_min, mmLoop_fst_min]
          exact foldl_min_perm _ hperm _

/-! Claim theorems. -/

/-- C6: for every state and every search variant, if `depth = 0` or
`isTerminal(state)` holds, the call returns exactly
`(heuristic(state), state)` — the state itself as the second component —
without enumerating or recursing into any successor. -/
theorem base_case_returns_state (g : Game σ) (s : σ) (L : Nat) (m : Bool)
    (r : Nat) (branch_limit : Nat) (alpha beta : Score)
    (h : L = 0 ∨ g.is_final s = true) :
    minmax g L s m r = (g.H_0 s, some s) ∧
    fhabminmax g L s alpha beta m = (g.H_0 s, some s) ∧
    fsabminmax g L s alpha beta m = (g.H_0 s, some s) ∧
    blminmax g L s branch_limit m r = (g.H_0 s, some s) ∧
    (pred_blminmax g L s branch_limit m r).2 = (g.H_0 s, some s) ∧
    (mi_pred_blminmax g L s branch_limit m r).2 = (g.H_0 s, some s) := by
  have hbl : blminmax g L s branch_limit m r = (g.H_0 s, some s) := by
    rcases h with rfl | hf
    · rfl
    · cases L with
      | zero => rfl
      | succ L => simp [blminmax, hf]
  refine ⟨?_, ?_, ?_, hbl, hbl, hbl⟩
  · rcases h with rfl | hf
    · rfl
    · cases L with
      | zero => rfl
      | succ L => simp [minmax, hf]
  · rcases h with rfl | hf
    · rfl
    · cases L with
      | zero => rfl
      | succ L => simp [fhabminmax, hf]
  · rcases h with rfl | hf
    · rfl
    · cases L with
      | zero => rfl
      | succ L => simp [fsabminmax, hf]

/-- C6 witness: the base case evaluated at `depth = 0` on a concrete game
(`childlessGame`, state `5`, heuristic value `7`). -/
theorem base_case_returns_state_witness :
    minmax childlessGame 0 5 true 0 = (Score.ofInt 7, some 5) ∧
    fhabminmax childlessGame 0 5 ⊥ ⊤ true = (Score.ofInt 7, some 5) ∧
    fsabminmax childlessGame 0 5 ⊥ ⊤ true = (Score.ofInt 7, some 5) ∧
    blminmax childlessGame 0 5 3 true 0 = (Score.ofInt 7, some 5) ∧
    (pred_blminmax childlessGame 0 5 3 true 0).2 = (Score.ofInt 7, some 5) ∧
    (mi_pred_blminmax childlessGame 0 5 3 true 0).2 = (Score.ofInt 7, some 5) :=
  base_case_returns_state childlessGame 5 0 true 0 3 ⊥ ⊤ (Or.inl rfl)

/-- C2 counterexample: on a non-terminal state with zero successors and
depth `1`, plain minimax returns `(heuristic(state), state)` — the state
itself, not `none` as the claim states. -/
theorem no_children_claim_false :
    minmax childlessGame 1 0 true 0 = (Score.ofInt 7, some 0) ∧
    minmax childlessGame 1 0 true 0 ≠ (childlessGame.H_0 0, none) := by
  exact ⟨by decide, by decide⟩

/-- C2 (amended): for every non-terminal state with zero successors and
every depth ≥ 1, every search variant returns `(heuristic(state), state)` —
the state itself as the second component, not `none` — and never raises. -/
theorem no_children_returns_state (g : Game σ) (s : σ) (L : Nat) (m : Bool)
    (r : Nat) (branch_limit : Nat) (alpha beta : Score) (hL : 1 ≤ L)
    (hfin : g.is_final s = false) (hch : g.get_children s = []) :
    minmax g L s m r = (g.H_0 s, some s) ∧
    fhabminmax g L s alpha beta m = (g.H_0 s, some s) ∧
    fsabminmax g L s alpha beta m = (g.H_0 s, some s) ∧
    blminmax g L s branch_limit m r = (g.H_0 s, some s) ∧
    (pred_blminmax g L s branch_limit m r).2 = (g.H_0 s, some s) ∧
    (mi_pred_blminmax g L s branch_limit m r).2 = (g.H_0 s, some s) := by
  cases L with
  | zero => exact absurd hL (by omega)
  | succ L =>
    have hbl : blminmax g (L + 1) s branch_limit m r = (g.H_0 s, some s) := by
      simp [blminmax, hfin, hch]
    exact ⟨by simp [minmax, hfin, hch], by simp [fhabminmax, hfin, hch],
      by simp [fsabminmax, hfin, hch], hbl, hbl, hbl⟩

/-- C2 witness: the amended no-successor behaviour evaluated on
`childlessGame` at depth `1`. -/
theorem no_children_returns_state_witness :
    minmax childlessGame 1 0 true 0 = (Score.ofInt 7, some 0) ∧
    fhabminmax childlessGame 1 0 ⊥ ⊤ true = (Score.ofInt 7, some 0) ∧
    fsabminmax childlessGame 1 0 ⊥ ⊤ true = (Score.ofInt 7, some 0) ∧
    blminmax childlessGame 1 0 5 true 0 = (Score.ofInt 7, some 0) ∧
    (pred_blminmax childlessGame 1 0 5 true 0).2 = (Score.ofInt 7, some 0) ∧
    (mi_pred_blminmax childlessGame 1 0 5 true 0).2 = (Score.ofInt 7, some 0) :=
  no_children_returns_state childlessGame 0 1 true 0 5 ⊥ ⊤ (by decide) rfl rfl

/-- C10: each predictive-guidance stub delegates unchanged to the
branch-limited variant, and each emits a nonempty output line naming the
stub and announcing the fallback — a machine-detectable signal distinct
from the (output-free) normal operation of the search variants, and the two
stubs' signals differ from each other. -/
theorem pred_stubs_delegate_and_signal (g : Game σ) (L : Nat) (s : σ)
    (branch_limit : Nat) (m : Bool) (r : Nat) :
    (pred_blminmax g L s branch_limit m r).2 = blminmax g L s branch_limit m r ∧
    (mi_pred_blminmax g L s branch_limit m r).2 = blminmax g L s branch_limit m r ∧
    (pred_blminmax g L s branch_limit m r).1 =
      ["pred_blminmax not yet implemented. Falling back to blminmax."] ∧
    (mi_pred_blminmax g L s branch_limit m r).1 =
      ["mi_pred_blminmax not yet implemented. Falling back to blminmax."] ∧
    (pred_blminmax g L s branch_limit m r).1 ≠ [] ∧
    (mi_pred_blminmax g L s branch_limit m r).1 ≠ [] ∧
    (pred_blminmax g L s branch_limit m r).1 ≠
      (mi_pred_blminmax g L s branch_limit m r).1 :=
  ⟨rfl, rfl, rfl, rfl,
    by show (["pred_blminmax not yet implemented. Falling back to blminmax."] :
        List String) ≠ []
       decide,
    by show (["mi_pred_blminmax not yet implemented. Falling back to blminmax."] :
        List String) ≠ []
       decide,
    by show (["pred_blminmax not yet implemented. Falling back to blminmax."] :
        List String) ≠
        ["mi_pred_blminmax not yet implemented. Falling back to blminmax."]
       decide⟩

/-- C8: if the branch limit is at least the number of children at every node
reachable within the search depth, the branch-limited variant's root value
equals plain minimax's root value exactly, and its tied-best set at the root
is a permutation of plain minimax's, so the uniform random tie-break draws
from the same multiset of children. -/
theorem blminmax_agrees_with_minmax (g : Game σ) (L : Nat) (s : σ)
    (branch_limit : Nat) (m : Bool)
    (h : ∀ t ∈ visited g L s, (g.get_children t).length ≤ branch_limit) :
    (∀ r r', (blminmax g L s branch_limit m r).1 = (minmax g L s m r').1) ∧
    ∃ tb tm : List σ, tb.Perm tm ∧
      (∀ r, (blminmax g L s branch_limit m r).2 = randomChoice r tb) ∧
      (∀ r, (minmax g L s m r).2 = randomChoice r tm) := by
  refine ⟨fun r r' => blminmax_fst_eq_minmax_fst g L s branch_limit m r r' h, ?_⟩
  cases L with
  | zero =>
    exact ⟨[s], [s], List.Perm.refl _, fun r => (randomChoice_singleton r s).symm,
      fun r => (randomChoice_singleton r s).symm⟩
  | succ L =>
    cases hfin : g.is_final s with
    | true =>
      refine ⟨[s], [s], List.Perm.refl _, fun r => ?_, fun r => ?_⟩
      · simp [blminmax, hfin, randomChoice_singleton]
      · simp [minmax, hfin, randomChoice_singleton]
    | false =>
      cases hch : g.get_children s with
      | nil =>
        refine ⟨[s], [s], List.Perm.refl _, fun r => ?_, fun r => ?_⟩
        · simp [blminmax, hfin, hch, randomChoice_singleton]
        · simp [minmax, hfin, hch, randomChoice_singleton]
      | cons c cs =>
        have hs : s ∈ visited g (L + 1) s := by simp [visited]
        have hlen : (c :: cs).length ≤ branch_limit := hch ▸ h s hs
        have hsub : ∀ x ∈ g.get_children s,
            ∀ t ∈ visited g L x, (g.get_children t).length ≤ branch_limit := by
          intro x hx t ht
          apply h
          simp only [visited, hfin, Bool.false_eq_true, if_false]
          exact List.mem_cons_of_mem _ (List.mem_flatMap.mpr ⟨x, hx, ht⟩)
        have hperm := promising_perm g (c :: cs) branch_limit hlen
        have hpt : ∀ x ∈ (((((c :: cs).map (fun child => (g.H_0 child, child))).insertionSort
              (fun x y => y.1 ≤ x.1)).take branch_limit).map (fun t => t.2)),
            (blminmax g L x branch_limit (!m) 0).1 = (minmax g L x (!m) 0).1 :=
          fun x hxp => blminmax_fst_eq_minmax_fst g L x branch_limit (!m) 0 0
            (hsub x (hch.symm ▸ promising_subset g (c :: cs) branch_limit x hxp))
        have hcongr := @mmLoop_congr σ
          (fun child => (blminmax g L child branch_limit (!m) 0).1)
          (fun child => (minmax g L child (!m) 0).1) m
          (((((c :: cs).map (fun child => (g.H_0 child, child))).insertionSort
            (fun x y => y.1 ≤ x.1)).take branch_limit).map (fun t => t.2)) hpt
        refine ⟨(mmLoop (fun child => (minmax g L child (!m) 0).1) m
            (((((c :: cs).map (fun child => (g.H_0 child, child))).insertionSort
              (fun x y => y.1 ≤ x.1)).take branch_limit).map (fun t => t.2))
            (if m then (⊥ : Score) else ⊤) []).2,
          (mmLoop (fun child => (minmax g L child (!m) 0).1) m (c :: cs)
            (if m then (⊥ : Score) else ⊤) []).2, ?_, fun r => ?_, fun r => ?_⟩
        · cases m with
          | true =>
            simp only [if_true]
            rw [mmLoop_snd_max, mmLoop_snd_max, ite_self, ite_self,
              List.nil_append, List.nil_append,
              foldl_max_perm (fun child => (minmax g L child (!true) 0).1) hperm ⊥]
            exact hperm.filter _
          | false =>
            simp only [Bool.false_eq_true, if_false]
            rw [mmLoop_snd_min, mmLoop_snd_min, ite_self, ite_self,
              List.nil_append, List.nil_append,
              foldl_min_perm (fun child => (minmax g L child (!false) 0).1) hperm ⊤]
            exact hperm.filter _
        · have hirr := @mmLoop_congr σ
            (fun child => (blminmax g L child branch_limit (!m) r).1)
            (fun child => (blminmax g L child branch_limit (!m) 0).1) m
            (((((c :: cs).map (fun child => (g.H_0 child, child))).insertionSort
              (fun x y => y.1 ≤ x.1)).take branch_limit).map (fun t => t.2))
            (fun x _ => blminmax_fst_r_irrel g L x branch_limit (!m) r 0)
          simp only [blminmax, hfin, Bool.false_eq_true, if_false, hch]
          rw [hirr, hcongr]
        · have hirr := @mmLoop_congr σ
            (fun child => (minmax g L child (!m) r).1)
            (fun child => (minmax g L child (!m) 0).1) m (c :: cs)
            (fun x _ => minmax_fst_r_irrel g L x (!m) r 0)
          simp only [minmax, hfin, Bool.false_eq_true, if_false, hch]
          rw [hirr]

/-- C8 witness: a depth-1 tree with three children and branch limit 5. -/
theorem blminmax_agrees_with_minmax_witness :
    (blminmax tieGame 1 0 5 true 0).1 = (minmax tieGame 1 0 true 0).1 :=
  (blminmax_agrees_with_minmax tieGame 1 0 5 true (by decide)).1 0 0

/-- C7 counterexample: (i) on a childless non-terminal state at depth 1,
plain minimax returns the state itself, not `none` as the claim requires;
(ii) fail-hard alpha-beta returns `none` although a successor exists, when
its only child evaluates to `-inf` and never strictly improves on the
initial bound. -/
theorem chosen_child_claim_false :
    (minmax childlessGame 1 0 true 0).2 = some 0 ∧
    (0 : Nat) ∉ childlessGame.get_children 0 ∧
    (minmax childlessGame 1 0 true 0).2 ≠ none ∧
    lostGame.get_children 0 = [1] ∧
    lostGame.is_final 0 = false ∧
    (fhabminmax lostGame 1 0 ⊥ ⊤ true).2 = none :=
  ⟨by decide, by decide, by decide, rfl, rfl, by decide⟩

/-- C7 (amended): for every call of any variant on a non-terminal state with
depth ≥ 1, the returned chosen child is a direct one-ply successor, or the
input state itself (which happens when the state has no successors), or
`none`; it is never a grandchild or a non-adjacent state.  Plain minimax
never returns `none`; the alpha-beta variants may return `none` even when
successors exist. -/
theorem chosen_child_adjacent (g : Game σ) (s : σ) (L : Nat) (m : Bool)
    (r : Nat) (branch_limit : Nat) (alpha beta : Score) (hL : 1 ≤ L)
    (hfin : g.is_final s = false) :
    (∀ x, (minmax g L s m r).2 = some x →
      x ∈ g.get_children s ∨ (g.get_children s = [] ∧ x = s)) ∧
    (minmax g L s m r).2 ≠ none ∧
    (g.get_children s = [] → (minmax g L s m r).2 = some s) ∧
    (∀ x, (fhabminmax g L s alpha beta m).2 = some x →
      x ∈ g.get_children s ∨ (g.get_children s = [] ∧ x = s)) ∧
    (∀ x, (fsabminmax g L s alpha beta m).2 = some x →
      x ∈ g.get_children s ∨ (g.get_children s = [] ∧ x = s)) ∧
    (∀ x, (blminmax g L s branch_limit m r).2 = some x →
      x ∈ g.get_children s ∨ (g.get_children s = [] ∧ x = s)) := by
  cases L with
  | zero => exact absurd hL (by omega)
  | succ L =>
    cases hch : g.get_children s with
    | nil =>
      refine ⟨fun x hx => ?_, ?_, fun _ => ?_, fun x hx => ?_, fun x hx => ?_,
        fun x hx => ?_⟩
      · simp only [minmax, hfin, Bool.false_eq_true, if_false, hch] at hx
        exact Or.inr ⟨rfl, (Option.some_injective _ hx).symm⟩
      · simp [minmax, hfin, hch]
      · simp [minmax, hfin, hch]
      · simp only [fhabminmax, hfin, Bool.false_eq_true, if_false, hch] at hx
        exact Or.inr ⟨rfl, (Option.some_injective _ hx).symm⟩
      · simp only [fsabminmax, hfin, Bool.false_eq_true, if_false, hch] at hx
        exact Or.inr ⟨rfl, (Option.some_injective _ hx).symm⟩
      · simp only [blminmax, hfin, Bool.false_eq_true, if_false, hch] at hx
        exact Or.inr ⟨rfl, (Option.some_injective _ hx).symm⟩
    | cons c cs =>
      refine ⟨fun x hx => ?_, ?_, fun habs => ?_, fun x hx => ?_, fun x hx => ?_,
        fun x hx => ?_⟩
      · simp only [minmax, hfin, Bool.false_eq_true, if_false, hch] at hx
        exact Or.inl (hch.symm ▸
          mmLoop_snd_subset _ m (c :: cs) _ x (randomChoice_mem hx))
      · simp only [minmax, hfin, Bool.false_eq_true, if_false, hch]
        cases m with
        | true =>
          obtain ⟨x, hx, _⟩ := randomChoice_isSome
            (mmLoop_max_ties_ne_nil (fun child =>
              (minmax g L child (!true) r).1) c cs) r
          simp only [if_true]
          rw [hx]
          simp
        | false =>
          obtain ⟨x, hx, _⟩ := randomChoice_isSome
            (mmLoop_min_ties_ne_nil (fun child =>
              (minmax g L child (!false) r).1) c cs) r
          simp only [Bool.false_eq_true, if_false]
          rw [hx]
          simp
      · exact absurd (hch ▸ habs) (List.cons_ne_nil c cs)
      · cases m with
        | true =>
          simp only [fhabminmax, hfin, Bool.false_eq_true, if_false, hch,
            if_true] at hx
          rcases fhLoopMax_snd_mem _ beta (c :: cs) ⊥ none alpha x hx with hb | hm
          · exact absurd hb (by simp)
          · exact Or.inl (hch.symm ▸ hm)
        | false =>
          simp only [fhabminmax, hfin, Bool.false_eq_true, if_false, hch] at hx
          rcases fhLoopMin_snd_mem _ alpha (c :: cs) ⊤ none beta x hx with hb | hm
          · exact absurd hb (by simp)
          · exact Or.inl (hch.symm ▸ hm)
      · cases m with
        | true =>
          simp only [fsabminmax, hfin, Bool.false_eq_true, if_false, hch,
            if_true] at hx
          rcases fsLoopMax_snd_mem _ beta (c :: cs) ⊥ none alpha x hx with hb | hm
          · exact absurd hb (by simp)
          · exact Or.inl (hch.symm ▸ hm)
        | false =>
          simp only [fsabminmax, hfin, Bool.false_eq_true, if_false, hch] at hx
          rcases fsLoopMin_snd_mem _ alpha (c :: cs) ⊤ none beta x hx with hb | hm
          · exact absurd hb (by simp)
          · exact Or.inl (hch.symm ▸ hm)
      · simp only [blminmax, hfin, Bool.false_eq_true, if_false, hch] at hx
        have hmem := mmLoop_snd_subset _ m _ _ x (randomChoice_mem hx)
        exact Or.inl (hch.symm ▸
          promising_subset g (c :: cs) branch_limit x hmem)

/-- C7 witness: plain minimax on the depth-1 tie scenario returns a child,
never `none`. -/
theorem chosen_child_adjacent_witness :
    (minmax tieGame 1 0 true 0).2 ≠ none :=
  (chosen_child_adjacent tieGame 0 1 true 0 5 ⊥ ⊤ (by decide) rfl).2.1

/-- C9: in fail-soft alpha-beta a maximizing node returns immediately — the
remaining siblings are never examined, the result being the same for every
sibling tail — as soon as a child's value reaches or exceeds beta, returning
that triggering child together with the raw value not clamped to the window;
symmetrically a minimizing node returns immediately once a child's value
falls to or below alpha.  Stated both for the loops and for `fsabminmax`
with the cutoff on the first child. -/
theorem fsab_cutoff_immediate {σ : Type} :
    (∀ (f : σ → Score → Score) (beta : Score) (c : σ) (cs : List σ)
        (value : Score) (best : Option σ) (alpha : Score),
        value < beta → beta ≤ f c alpha →
        fsLoopMax f beta (c :: cs) value best alpha = (f c alpha, some c)) ∧
    (∀ (f : σ → Score → Score) (alpha : Score) (c : σ) (cs : List σ)
        (value : Score) (best : Option σ) (beta : Score),
        alpha < value → f c beta ≤ alpha →
        fsLoopMin f alpha (c :: cs) value best beta = (f c beta, some c)) ∧
    (∀ (g : Game σ) (L : Nat) (s : σ) (alpha beta : Score) (c : σ) (cs : List σ),
        g.is_final s = false → g.get_children s = c :: cs → (⊥ : Score) < beta →
        beta ≤ (fsabminmax g L c alpha beta false).1 →
        fsabminmax g (L + 1) s alpha beta true =
          ((fsabminmax g L c alpha beta false).1, some c)) ∧
    (∀ (g : Game σ) (L : Nat) (s : σ) (alpha beta : Score) (c : σ) (cs : List σ),
        g.is_final s = false → g.get_children s = c :: cs → alpha < (⊤ : Score) →
        (fsabminmax g L c alpha beta true).1 ≤ alpha →
        fsabminmax g (L + 1) s alpha beta false =
          ((fsabminmax g L c alpha beta true).1, some c)) := by
  have hmax : ∀ (f : σ → Score → Score) (beta : Score) (c : σ) (cs : List σ)
      (value : Score) (best : Option σ) (alpha : Score),
      value < beta → beta ≤ f c alpha →
      fsLoopMax f beta (c :: cs) value best alpha = (f c alpha, some c) := by
    intro f beta c cs value best alpha hvb hcb
    have hv : value < f c alpha := lt_of_lt_of_le hvb hcb
    simp only [fsLoopMax, if_pos hv, if_pos hcb]
  have hmin : ∀ (f : σ → Score → Score) (alpha : Score) (c : σ) (cs : List σ)
      (value : Score) (best : Option σ) (beta : Score),
      alpha < value → f c beta ≤ alpha →
      fsLoopMin f alpha (c :: cs) value best beta = (f c beta, some c) := by
    intro f alpha c cs value best beta hav hca
    have hv : f c beta < value := lt_of_le_of_lt hca hav
    simp only [fsLoopMin, if_pos hv, if_pos hca]
  refine ⟨hmax, hmin, ?_, ?_⟩
  · intro g L s alpha beta c cs hfin hch hb hcb
    simp only [fsabminmax, hfin, Bool.false_eq_true, if_false, hch, if_true]
    exact hmax _ beta c cs ⊥ none alpha hb hcb
  · intro g L s alpha beta c cs hfin hch ha hca
    simp only [fsabminmax, hfin, Bool.false_eq_true, if_false, hch]
    exact hmin _ alpha c cs ⊤ none beta ha hca

/-- C9 witness: the maximizing cutoff evaluated with a constant child
evaluator equal to beta and a nonempty sibling tail. -/
theorem fsab_cutoff_immediate_witness :
    fsLoopMax (fun (_ : Nat) (_ : Score) => Score.ofInt 9) (Score.ofInt 9)
      [0, 1] ⊥ none ⊥ = (Score.ofInt 9, some 0) :=
  (@fsab_cutoff_immediate Nat).1 _ _ 0 [1] ⊥ none ⊥ (by decide) (by decide)

/-- C5: plain minimax materialises the full tied-best set before choosing
and draws from it by index: at depth 1 on a root with child values 5, 9, 9,
the collected tied set is exactly the two value-9 children, the root value
is 9, the returned child is the random draw from the tied set, each value-9
child is returned under some draw, and the value-5 child is never
returned. -/
theorem minmax_tie_break_uniform :
    (mmLoop (fun child => (minmax tieGame 0 child false 0).1) true [1, 2, 3]
      ⊥ []).2 = [2, 3] ∧
    (∀ r, minmax tieGame 1 0 true r = (Score.ofInt 9, randomChoice r [2, 3])) ∧
    (∃ r, (minmax tieGame 1 0 true r).2 = some 2) ∧
    (∃ r, (minmax tieGame 1 0 true r).2 = some 3) ∧
    (∀ r, (minmax tieGame 1 0 true r).2 ≠ some 1) := by
  have key : ∀ r, minmax tieGame 1 0 true r = (Score.ofInt 9, randomChoice r [2, 3]) :=
    fun r => rfl
  refine ⟨by decide, key, ⟨0, by rw [key 0]; decide⟩, ⟨1, by rw [key 1]; decide⟩,
    fun r => ?_⟩
  rw [key r]
  show randomChoice r [2, 3] ≠ some 1
  rcases Nat.mod_two_eq_zero_or_one r with hr | hr <;> simp [randomChoice, hr]

/-- C1 (code bug): `find_best_move` passes the literal `True` positionally
into `alpha` of both alpha-beta engines (Python's `True == 1`), so on
`windowGame` at depth 2 the configured searches disagree on the root value:
plain minimax returns -5 while fail-hard and fail-soft both return 0. -/
theorem find_best_move_root_values_disagree :
    (∀ r, find_best_move_min_max windowGame 0 2 r = (Score.ofInt (-5), some 2)) ∧
    find_best_move_fail_hard windowGame 0 2 = (Score.ofInt 0, some 1) ∧
    find_best_move_fail_soft windowGame 0 2 = (Score.ofInt 0, some 1) ∧
    (Score.ofInt 0 : Score) ≠ Score.ofInt (-5) := by
  refine ⟨fun r => ?_, by decide, by decide, by decide⟩
  have key : find_best_move_min_max windowGame 0 2 r
      = (Score.ofInt (-5), randomChoice r [2]) := rfl
  rw [key, randomChoice_singleton]

/-- C3 (code bug): `find_best_move` passes the literal `True` positionally
into `branch_limit` (list slicing with `True` keeps one element), so the
branch-limited search it launches retains only the top 1 statically ranked
child, not the documented top 5: on `branchGame` at depth 2 it explores only
child 1 and returns (-100, child 1), while `blminmax` with
`branch_limit = 5` returns (7, child 2). -/
theorem find_best_move_branch_limit_is_one :
    (∀ r, find_best_move_branching_limit branchGame 0 2 r =
      (Score.ofInt (-100), some 1)) ∧
    (∀ r, blminmax branchGame 2 0 5 true r = (Score.ofInt 7, some 2)) ∧
    (Score.ofInt (-100) : Score) ≠ Score.ofInt 7 := by
  refine ⟨fun r => ?_, fun r => ?_, by decide⟩
  · have key : find_best_move_branching_limit branchGame 0 2 r
        = (Score.ofInt (-100), randomChoice r [1]) := rfl
    rw [key, randomChoice_singleton]
  · have key : blminmax branchGame 2 0 5 true r
        = (Score.ofInt 7, randomChoice r [2]) := rfl
    rw [key, randomChoice_singleton]

/-- C4 (code bug): `chess_H0` is not mover-relative at checkmate.  On the
Scholar's-mate board Black is to move and is checkmated, yet the function
returns the positive sentinel `+inf` — the mover-relative convention the
engine relies on demands `-inf` for the checkmated player to move.  On the
Fool's-mate board (White to move and checkmated) it returns `-inf`: the
sentinels are from White's perspective, not the mover's. -/
theorem chess_H0_checkmate_not_mover_relative :
    scholars_mate_board.turn = false ∧
    scholars_mate_board.is_checkmate = true ∧
    chess_H0 scholars_mate_board = (⊤ : Score) ∧
    chess_H0 scholars_mate_board ≠ (⊥ : Score) ∧
    fools_mate_board.turn = true ∧
    fools_mate_board.is_checkmate = true ∧
    chess_H0 fools_mate_board = (⊥ : Score) :=
  ⟨rfl, rfl, by decide, by decide, rfl, rfl, by decide⟩

example : minmax tieGame 1 0 true 0 = (Score.ofInt 9, some 2) := by decide
example : minmax tieGame 1 0 true 1 = (Score.ofInt 9, some 3) := by decide
example : find_best_move_min_max windowGame 0 2 0 = (Score.ofInt (-5), some 2) := by decide
example : find_best_move_fail_hard windowGame 0 2 = (Score.ofInt 0, some 1) := by decide
example : find_best_move_fail_soft windowGame 0 2 = (Score.ofInt 0, some 1) := by decide
example : fhabminmax windowGame 2 0 ⊥ ⊤ true = (Score.ofInt (-5), some 2) := by decide
example : fsabminmax windowGame 2 0 ⊥ ⊤ true = (Score.ofInt (-5), some 2) := by decide
example : find_best_move_branching_limit branchGame 0 2 0 = (Score.ofInt (-100), some 1) := by decide
example : blminmax branchGame 2 0 5 true 0 = (Score.ofInt 7, some 2) := by decide
example : fhabminmax lostGame 1 0 ⊥ ⊤ true = ((⊥ : Score), none) := by decide
example : chess_H0 scholars_mate_board = (⊤ : Score) := by decide
example : chess_H0 fools_mate_board = (⊥ : Score) := by decide

